import Mathlib

/-
Formal model of the inference-time post-processing code in
`model/utils/net_utils.py` (box filtering, grasp bounds filtering,
relation-matrix construction, manipulation-relationship-tree building
and path search).

Conventions of the shallow embedding:
* torch/numpy tensors of floats are modelled as lists of rationals;
  a 2-D array is a `Mat2`: its rows plus its column count (numpy keeps
  the column count even for an array with zero rows);
* integer matrices are modelled as functions `ℕ → ℕ → ℤ` built by the
  same assignment loops as the source;
* Python exceptions are modelled with `Except String`; a recursive
  search that may fail to produce a value is modelled with `Option`
  and an explicit fuel argument;
* the compiled `nms` kernel (`model.roi_layers`) is outside this
  repository, so `box_filter` takes it as an abstract function from
  the score-sorted detections to a list of positions into them.
-/

/-- Sequences a list of optional results, as a Python loop over
recursive calls: no value as soon as one call produces no value. -/
def optSeq {α : Type} : List (Option α) → Option (List α)
  | [] => some []
  | o :: rest =>
    match o with
    | none => none
    | some a =>
      match optSeq rest with
      | none => none
      | some l => some (a :: l)

/-- A 2-D numpy/torch array of rationals: the rows together with the
column count (numpy's `.shape[-1]`, kept even when there are no rows). -/
structure Mat2 where
  rows : List (List ℚ)
  width : ℕ
deriving DecidableEq

/-- `_, order = torch.sort(cls_scores, 0, True)` (net_utils.py line 307):
a permutation of `range s.length` that orders the scores descendingly. -/
def argsortDesc (s : List ℚ) : List ℕ :=
  List.insertionSort (fun i j => s.getD j 0 ≤ s.getD i 0) (List.range s.length)

/-- `box_filter(box, box_scores, thresh, use_nms)` (net_utils.py
lines 295-326).  `nmsKeep` stands for the compiled
`model.roi_layers.nms` routine: it receives the score-sorted boxes and
scores and returns positions into that sorted order. -/
def box_filter (box : Mat2) (scores : List ℚ) (thresh : ℚ) (use_nms : Bool)
    (nmsKeep : List (List ℚ) → List ℚ → List ℕ) : Mat2 × List ℚ × List ℕ :=
  let d_box := box.width
  let inds := (List.range scores.length).filter (fun i => thresh < scores.getD i 0)
  if 0 < inds.length then
    let cls_scores := inds.map (fun i => scores.getD i 0)
    let order := argsortDesc cls_scores
    let cls_boxes := inds.map (fun i => box.rows.getD i [])
    if use_nms then
      let sortedBoxes := order.map (fun k => cls_boxes.getD k [])
      let sortedScores := order.map (fun k => cls_scores.getD k 0)
      let keep := nmsKeep sortedBoxes sortedScores
      let order2 := keep.map (fun k => order.getD k 0)
      (⟨keep.map (fun k => sortedBoxes.getD k []), d_box⟩,
        keep.map (fun k => sortedScores.getD k 0),
        order2.map (fun k => inds.getD k 0))
    else
      (⟨order.map (fun k => cls_boxes.getD k []), d_box⟩,
        order.map (fun k => cls_scores.getD k 0),
        order.map (fun k => inds.getD k 0))
  else
    (⟨[], d_box⟩, [], [])

/-- One row of `imshape` in `grasp_inference` (net_utils.py lines
402-404): `np.tile(np.array([im_info[1], im_info[0]]), ... 4)`, i.e.
the width/height pattern matching the 8 corner coordinates. -/
def imshapeRow (w h : ℚ) : List ℚ := [w, h, w, h, w, h, w, h]

/-- `((pred_boxes > imshape) | (pred_boxes < 0)).sum(-1)` for one grasp
row (net_utils.py line 405): the number of corner coordinates that are
strictly greater than their axis dimension or strictly negative. -/
def graspOOBCount (row : List ℚ) (w h : ℚ) : ℕ :=
  (row.zip (imshapeRow w h)).countP (fun p => decide (p.2 < p.1 ∨ p.1 < 0))

/-- `keep` for one grasp row (net_utils.py line 405): the row is kept
iff no coordinate is out of bounds. -/
def graspKeep (row : List ℚ) (w h : ℚ) : Bool :=
  decide (graspOOBCount row w h = 0)

/-- `pred_boxes = pred_boxes[keep]` (net_utils.py line 406): the hard
rejection of out-of-bounds grasps, applied before score filtering. -/
def graspBoundsFilter (rows : List (List ℚ)) (w h : ℚ) : List (List ℚ) :=
  rows.filter (fun r => graspKeep r w h)

/-- `torch.argmax` over one 3-element row of `rel_cls_prob`
(net_utils.py line 548): index of the first maximal entry. -/
def torchArgmax3 (r : ℚ × ℚ × ℚ) : ℕ :=
  if r.1 < r.2.1 then (if r.2.1 < r.2.2 then 2 else 1)
  else (if r.1 < r.2.2 then 2 else 0)

/-- `rel = torch.argmax(rel_cls_prob, dim=1) + 1` (net_utils.py
line 548). -/
def relVec (probs : List (ℚ × ℚ × ℚ)) : List ℤ :=
  probs.map (fun r => (torchArgmax3 r : ℤ) + 1)

/-- The upper-triangle index pairs `(o1, o2)`, `o2` from `o1+1` to
`num_obj - 1`, in the order the double loop of net_utils.py lines
551-554 visits them (so the position of a pair in this list is the
value of `counter` when it is assigned). -/
def upperPairs (n : ℕ) : List (ℕ × ℕ) :=
  (List.range n).flatMap (fun o1 =>
    (List.range' (o1 + 1) (n - (o1 + 1))).map (fun o2 => (o1, o2)))

/-- The lower-triangle index pairs `(o1, o2)`, `o2 < o1`, in the order
the double loop of net_utils.py lines 555-562 visits them. -/
def lowerPairs (n : ℕ) : List (ℕ × ℕ) :=
  (List.range n).flatMap (fun o1 => (List.range o1).map (fun o2 => (o1, o2)))

/-- The first loop of `rel_prob_to_mat` (net_utils.py lines 549-554):
starting from `np.zeros((num_obj, num_obj))`, assign
`rel_mat[o1, o2] = rel[counter]` over the upper-triangle pairs. -/
def fillUpper (probs : List (ℚ × ℚ × ℚ)) (n : ℕ) : ℕ → ℕ → ℤ :=
  ((upperPairs n).zip (relVec probs)).foldl
    (fun m pr => fun a b => if (a, b) = pr.1 then pr.2 else m a b)
    (fun _ _ => 0)

/-- Python truthiness of the bare class object `RuntimeError` in the
statement `assert RuntimeError` (net_utils.py line 562): a class object
is truthy, so the assertion always passes. -/
def pyBool_RuntimeError : Bool := true

/-- One step of the second loop of `rel_prob_to_mat` (net_utils.py
lines 557-562), deriving a lower-triangle entry from the mirrored
upper-triangle value `upper`; `cur` is the current (zero-initialized)
value of the entry, which is left unchanged on the `else` branch
because `assert RuntimeError` asserts a truthy object. -/
def mirrorLowerEntry (upper cur : ℤ) : Except String ℤ :=
  if upper = 3 then Except.ok upper
  else if upper = 1 ∨ upper = 2 then Except.ok (3 - upper)
  else if pyBool_RuntimeError then Except.ok cur
  else Except.error "AssertionError"

/-- The pure value computed by `mirrorLowerEntry` (which never
errors). -/
def mirrorVal (upper cur : ℤ) : ℤ :=
  if upper = 3 then upper
  else if upper = 1 ∨ upper = 2 then 3 - upper
  else cur

/-- The second loop of `rel_prob_to_mat` (net_utils.py lines 555-562)
over the lower-triangle pairs. -/
def fillLower (m1 : ℕ → ℕ → ℤ) (n : ℕ) : Except String (ℕ → ℕ → ℤ) :=
  (lowerPairs n).foldlM
    (fun m pr =>
      (mirrorLowerEntry (m pr.2 pr.1) (m pr.1 pr.2)).map
        (fun v => fun a b => if (a, b) = pr then v else m a b))
    m1

/-- The pure version of `fillLower` (the loop never raises). -/
def fillLowerPure (m1 : ℕ → ℕ → ℤ) (n : ℕ) : ℕ → ℕ → ℤ :=
  (lowerPairs n).foldl
    (fun m pr => fun a b =>
      if (a, b) = pr then mirrorVal (m pr.2 pr.1) (m pr.1 pr.2) else m a b)
    m1

/-- The relation matrix produced by `rel_prob_to_mat` on the main path
(both loops). -/
def relMatFinal (probs : List (ℚ × ℚ × ℚ)) (n : ℕ) : ℕ → ℕ → ℤ :=
  fillLowerPure (fillUpper probs n) n

/-- `rel_prob_to_mat(rel_cls_prob, num_obj)` (net_utils.py lines
536-563).  The `rel_cls_prob.size(0) == 0` early return of the empty
`np.array([])` is modelled as the zero matrix. -/
def rel_prob_to_mat (probs : List (ℚ × ℚ × ℚ)) (num_obj : ℕ) :
    Except String (ℕ → ℕ → ℤ) :=
  if probs.length = 0 then Except.ok (fun _ _ => 0)
  else fillLower (fillUpper probs num_obj) num_obj

/-- A relation matrix as consumed by `create_mrt`: the object count and
the integer entries. -/
structure RelMat where
  n : ℕ
  entry : ℕ → ℕ → ℤ

/-- Modelled from the spec: `cfg.VMRN.FATHER` lives in
`model/utils/config.py`, which is not under src; the spec fixes
PARENT = 1. -/
def VMRN_FATHER : ℤ := 1

/-- Modelled from the spec: `cfg.VMRN.CHILD` lives in
`model/utils/config.py`, which is not under src; the spec fixes
CHILD = 2. -/
def VMRN_CHILD : ℤ := 2

/-- Modelled from the spec: the NO_RELATION label, fixed to 3 by the
spec. -/
def VMRN_NOREL : ℤ := 3

/-- A manipulation relationship tree: an `nx.DiGraph` modelled by its
node list and directed edge list, in insertion order. -/
structure MRT where
  nodes : List ℕ
  edges : List (ℕ × ℕ)

/-- `np.where(rel_mat > 0)[0]` (net_utils.py line 569): the row
indices (with multiplicity, row-major) of the strictly positive
entries. -/
def posRowIdx (m : RelMat) : List ℕ :=
  (List.range m.n).flatMap (fun i =>
    ((List.range m.n).filter (fun j => 0 < m.entry i j)).map (fun _ => i))

/-- The edges added by the double loop of `create_mrt` (net_utils.py
lines 570-579): for `o2 < o1 < node_num`, edge `(o2, o1)` when the
entry is FATHER and edge `(o1, o2)` when it is CHILD. -/
def mrtEdges (m : RelMat) (node_num : ℕ) : List (ℕ × ℕ) :=
  (List.range node_num).flatMap (fun o1 => (List.range o1).flatMap (fun o2 =>
    (if m.entry o1 o2 = VMRN_FATHER then [(o2, o1)] else []) ++
    (if m.entry o1 o2 = VMRN_CHILD then [(o1, o2)] else [])))

/-- `create_mrt(rel_mat)` (net_utils.py lines 565-580).
`node_num = np.max(np.where(rel_mat > 0)[0]) + 1`; `np.max` of an
empty array raises ValueError, modelled as `none`. -/
def create_mrt (m : RelMat) : Option MRT :=
  match (posRowIdx m).max? with
  | none => none
  | some mx => some ⟨List.range (mx + 1), mrtEdges m (mx + 1)⟩

/-- `find_all_paths(mrt, t_node)` (net_utils.py lines 582-601) with an
explicit recursion-fuel argument: the recursion of the source has no
structural bound, so a call is modelled as producing a value only for
sufficiently large fuel.  The `assert t_node in mrt.nodes` is the
`t ∈ g.nodes` test. -/
def find_all_paths (g : MRT) : ℕ → ℕ → Option (List (List ℕ))
  | 0, _ => none
  | fuel + 1, t =>
    if t ∈ g.nodes then
      match optSeq ((g.edges.filter (fun e => e.2 = t)).map
          (fun e => find_all_paths g fuel e.1)) with
      | none => none
      | some subs =>
        let paths := subs.flatten.map (fun p => p ++ [t])
        if paths.isEmpty then some [[t]] else some paths
    else none

/-- `len(p) < p_lenth` where `p_lenth` is `np.inf` or a finite length;
`none` models `np.inf`. -/
def ltInf (k : ℕ) (pl : Option ℕ) : Bool :=
  match pl with
  | none => true
  | some m => decide (k < m)

/-- `find_shortest_path(mrt, t_node)` (net_utils.py lines 603-610).
The loop state is `(p_lenth, best_path)`, started at `(np.inf, None)`;
note that the source never reassigns `p_lenth` inside the loop. -/
def find_shortest_path (g : MRT) (fuel t : ℕ) : Option (Option (List ℕ)) :=
  (find_all_paths g fuel t).map (fun ps =>
    (ps.foldl
      (fun st p => if ltInf p.length st.1 then (st.1, some p) else st)
      ((none : Option ℕ), (none : Option (List ℕ)))).2)

/-- Fixture for the shortest-path defect: a tree whose enumeration
yields the 2-node path `[1, 0]` before the 3-node path `[3, 2, 0]`. -/
def mrtC1 : MRT := ⟨[0, 1, 2, 3], [(1, 0), (2, 0), (3, 2)]⟩

/-- Fixture graph for the path-enumeration witness: one edge `1 → 0`. -/
def mrtW9 : MRT := ⟨[0, 1], [(1, 0)]⟩

/-- A rank function certifying that `mrtW9` is acyclic. -/
def rankW9 : ℕ → ℕ := fun k => if k = 0 then 1 else 0

/-- Fixture matrix for the `create_mrt` witness: object 1 is the
father of object 0. -/
def relMatW8 : RelMat := ⟨2, fun i j => if i = 1 ∧ j = 0 then 1 else 0⟩

/-- Fixture for the `create_mrt` failure witness: a 1×1 zero matrix,
as produced for a single detected object. -/
def relMatW10 : RelMat := ⟨1, fun _ _ => 0⟩

/-
THEOREMS.  Helper lemmas first, then one theorem per claim (with a
witness where the claim theorem carries hypotheses).
-/

theorem listGetD_map {α β : Type} (f : α → β) (l : List α) (i : ℕ)
    (h : i < l.length) (d : β) (d2 : α) :
    (l.map f).getD i d = f (l.getD i d2) := by
  rw [List.getD_eq_getElem?_getD, List.getElem?_map, List.getD_eq_getElem?_getD,
    List.getElem?_eq_getElem h]
  rfl

theorem listGetD_mem {α : Type} (l : List α) (i : ℕ) (d : α)
    (h : i < l.length) : l.getD i d ∈ l := by
  rw [List.getD_eq_getElem?_getD, List.getElem?_eq_getElem h]
  exact List.getElem_mem h

/-- Claim C7: if no candidate has score strictly above the threshold,
`box_filter` returns normally with an empty box array of the input's
box width, an empty score array and an empty index array. -/
theorem box_filter_empty_result (box : Mat2) (scores : List ℚ) (thresh : ℚ)
    (use_nms : Bool) (nmsKeep : List (List ℚ) → List ℚ → List ℕ)
    (h : ∀ i, i < scores.length → ¬ thresh < scores.getD i 0) :
    box_filter box scores thresh use_nms nmsKeep = (⟨[], box.width⟩, [], []) := by
  have hinds :
      (List.range scores.length).filter (fun i => thresh < scores.getD i 0) = [] := by
    rw [List.filter_eq_nil_iff]
    intro a ha
    simp only [List.mem_range] at ha
    simpa using h a ha
  simp only [box_filter, hinds]
  simp

/-- Witness for C7 at a concrete input. -/
theorem box_filter_empty_result_witness :
    box_filter ⟨[[0, 0, 0, 0]], 4⟩ [1] 1 true (fun _ _ => []) =
      (⟨[], 4⟩, [], []) :=
  box_filter_empty_result _ _ _ _ _ (by decide)

/-- Claim C2 (corrected): a grasp row survives the bounds filter iff
every corner coordinate lies in the closed interval `[0, dim]` of its
axis; the rejection is a hard filter (rows pass through unmodified),
so a coordinate strictly below 0 or strictly above its dimension is
discarded, while a coordinate exactly equal to the dimension is kept. -/
theorem graspBoundsFilter_closed_interval (w h : ℚ) (rows : List (List ℚ))
    (row : List ℚ) :
    row ∈ graspBoundsFilter rows w h ↔
      row ∈ rows ∧ ∀ p ∈ row.zip (imshapeRow w h), 0 ≤ p.1 ∧ p.1 ≤ p.2 := by
  simp only [graspBoundsFilter, List.mem_filter, graspKeep, graspOOBCount,
    decide_eq_true_eq, List.countP_eq_zero, not_or, not_lt]
  constructor
  · rintro ⟨h1, h2⟩
    exact ⟨h1, fun p hp => ⟨(h2 p hp).2, (h2 p hp).1⟩⟩
  · rintro ⟨h1, h2⟩
    exact ⟨h1, fun p hp => ⟨(h2 p hp).2, (h2 p hp).1⟩⟩

/-- Witness for C2's corrected theorem at a concrete input. -/
theorem graspBoundsFilter_closed_interval_witness :
    ([2, 3, 0, 0, 0, 0, 0, 0] : List ℚ) ∈ graspBoundsFilter [[2, 3, 0, 0, 0, 0, 0, 0]] 10 10 ↔
      ([2, 3, 0, 0, 0, 0, 0, 0] : List ℚ) ∈ [([2, 3, 0, 0, 0, 0, 0, 0] : List ℚ)] ∧
        ∀ p ∈ ([2, 3, 0, 0, 0, 0, 0, 0] : List ℚ).zip (imshapeRow 10 10), 0 ≤ p.1 ∧ p.1 ≤ p.2 :=
  graspBoundsFilter_closed_interval 10 10 _ _

/-- Counterexample to claim C2 as stated: a grasp with a corner
coordinate exactly equal to `image_width` (100) is kept by the bounds
filter, not discarded. -/
theorem graspBoundsFilter_boundary_kept :
    graspKeep [100, 0, 0, 0, 0, 0, 0, 0] 100 100 = true ∧
    graspBoundsFilter [[100, 0, 0, 0, 0, 0, 0, 0]] 100 100 =
      [[100, 0, 0, 0, 0, 0, 0, 0]] := by
  exact ⟨by decide, by decide⟩

theorem mirrorLowerEntry_eq_ok (u c : ℤ) :
    mirrorLowerEntry u c = Except.ok (mirrorVal u c) := by
  unfold mirrorLowerEntry mirrorVal pyBool_RuntimeError
  split_ifs <;> first | rfl | simp_all

theorem fillLower_eq_ok (m1 : ℕ → ℕ → ℤ) (n : ℕ) :
    fillLower m1 n = Except.ok (fillLowerPure m1 n) := by
  unfold fillLower fillLowerPure
  generalize lowerPairs n = L
  induction L generalizing m1 with
  | nil => rfl
  | cons pr L ih =>
    rw [List.foldlM_cons, List.foldl_cons, mirrorLowerEntry_eq_ok]
    simp only [Except.map, bind, Except.bind]
    exact ih _

/-- Claim C3: the guard on the lower-triangle derivation is
`assert RuntimeError`, which asserts the truthiness of the exception
class itself and therefore never fails: with a mirrored value of 0
(outside {1,2,3}) the entry is returned unchanged instead of aborting,
and `rel_prob_to_mat` always returns a matrix, never an error. -/
theorem rel_mirror_guard_never_aborts :
    mirrorLowerEntry 0 0 = Except.ok 0 ∧
    ∀ (probs : List (ℚ × ℚ × ℚ)) (num_obj : ℕ),
      ∃ M, rel_prob_to_mat probs num_obj = Except.ok M := by
  refine ⟨rfl, fun probs num_obj => ?_⟩
  unfold rel_prob_to_mat
  split
  · exact ⟨_, rfl⟩
  · exact ⟨_, fillLower_eq_ok _ _⟩

theorem optSeq_isSome {α : Type} (l : List (Option α))
    (h : ∀ o ∈ l, o.isSome) : (optSeq l).isSome := by
  induction l with
  | nil => rfl
  | cons o rest ih =>
    obtain ⟨a, ha⟩ := Option.isSome_iff_exists.mp (h o (List.mem_cons_self o rest))
    obtain ⟨l2, hl2⟩ := Option.isSome_iff_exists.mp
      (ih (fun x hx => h x (List.mem_cons_of_mem o hx)))
    simp [optSeq, ha, hl2]

theorem fap_isSome (g : MRT) (rank : ℕ → ℕ)
    (hwf : ∀ e ∈ g.edges, e.1 ∈ g.nodes)
    (hacyc : ∀ e ∈ g.edges, rank e.1 < rank e.2) :
    ∀ fuel t, t ∈ g.nodes → rank t < fuel →
      (find_all_paths g fuel t).isSome := by
  intro fuel
  induction fuel with
  | zero => intro t _ hr; omega
  | succ m ih =>
    intro t ht hr
    have hsub : (optSeq ((g.edges.filter (fun e => e.2 = t)).map
        (fun e => find_all_paths g m e.1))).isSome := by
      apply optSeq_isSome
      intro o ho
      obtain ⟨e, he, rfl⟩ := List.mem_map.mp ho
      have he2 := List.mem_filter.mp he
      have het : e.2 = t := by simpa using he2.2
      apply ih e.1 (hwf e he2.1)
      have hlt := hacyc e he2.1
      rw [het] at hlt
      omega
    obtain ⟨subs, hsubs⟩ := Option.isSome_iff_exists.mp hsub
    simp only [find_all_paths, if_pos ht, hsubs]
    split <;> rfl

theorem fap_last (g : MRT) (fuel t : ℕ) (ps : List (List ℕ))
    (h : find_all_paths g fuel t = some ps) :
    ∀ p ∈ ps, p.getLast? = some t := by
  cases fuel with
  | zero => cases h
  | succ m =>
    by_cases ht : t ∈ g.nodes
    · rw [find_all_paths, if_pos ht] at h
      cases hseq : optSeq ((g.edges.filter (fun e => e.2 = t)).map
          (fun e => find_all_paths g m e.1)) with
      | none => rw [hseq] at h; cases h
      | some subs =>
        rw [hseq] at h
        simp only at h
        split at h
        · cases h
          intro p hp
          simp only [List.mem_singleton] at hp
          subst hp
          rfl
        · cases h
          intro p hp
          obtain ⟨q, _, rfl⟩ := List.mem_map.mp hp
          exact List.getLast?_concat q
    · rw [find_all_paths, if_neg ht] at h
      cases h

theorem fap_no_incoming (g : MRT) (fuel t : ℕ) (hfuel : 0 < fuel)
    (ht : t ∈ g.nodes) (h : ∀ e ∈ g.edges, e.2 ≠ t) :
    find_all_paths g fuel t = some [[t]] := by
  cases fuel with
  | zero => omega
  | succ m =>
    have hfilter : g.edges.filter (fun e => e.2 = t) = [] := by
      rw [List.filter_eq_nil_iff]
      intro e he
      simpa using h e he
    rw [find_all_paths, if_pos ht, hfilter]
    rfl

/-- Claim C9: on an acyclic tree (certified by a rank function
increasing along edges, with edge endpoints among the nodes), for any
target node in the tree, `find_all_paths` produces a value with
sufficient fuel; every returned sequence ends with the target; and the
result is exactly `[[t]]` when the target has no incoming edge. -/
theorem find_all_paths_spec (g : MRT) (rank : ℕ → ℕ)
    (hwf : ∀ e ∈ g.edges, e.1 ∈ g.nodes)
    (hacyc : ∀ e ∈ g.edges, rank e.1 < rank e.2)
    (t : ℕ) (ht : t ∈ g.nodes) :
    ∃ ps, find_all_paths g (rank t + 1) t = some ps ∧
      (∀ p ∈ ps, p.getLast? = some t) ∧
      ((∀ e ∈ g.edges, e.2 ≠ t) → ps = [[t]]) := by
  obtain ⟨ps, hps⟩ := Option.isSome_iff_exists.mp
    (fap_isSome g rank hwf hacyc (rank t + 1) t ht (Nat.lt_succ_self _))
  refine ⟨ps, hps, fap_last g _ t ps hps, fun hni => ?_⟩
  have h2 := fap_no_incoming g (rank t + 1) t (Nat.succ_pos _) ht hni
  rw [h2] at hps
  exact (Option.some.inj hps).symm

/-- Witness for C9 at a concrete graph with one edge `1 → 0`. -/
theorem find_all_paths_spec_witness :
    ∃ ps, find_all_paths mrtW9 (rankW9 0 + 1) 0 = some ps ∧
      (∀ p ∈ ps, p.getLast? = some 0) ∧
      ((∀ e ∈ mrtW9.edges, e.2 ≠ 0) → ps = [[0]]) :=
  find_all_paths_spec mrtW9 rankW9 (by decide) (by decide) 0 (by decide)

/-- Claim C1 (code bug): on the tree with edges `1 → 0`, `2 → 0`,
`3 → 2`, the enumerated paths to target 0 are `[1, 0]` and
`[3, 2, 0]`; `find_shortest_path` returns the longer `[3, 2, 0]`
because `p_lenth` is never updated inside its selection loop, so the
last enumerated path always overwrites `best_path`. -/
theorem find_shortest_path_not_shortest :
    find_shortest_path mrtC1 5 0 = some (some [3, 2, 0]) ∧
    [1, 0] ∈ (find_all_paths mrtC1 5 0).getD [] ∧
    ([1, 0] : List ℕ).length < ([3, 2, 0] : List ℕ).length := by
  exact ⟨by decide, by decide, by decide⟩

theorem mem_ite_pair (c : Prop) [Decidable c] (x y : ℕ × ℕ) :
    (x ∈ if c then [y] else []) ↔ c ∧ x = y := by
  split_ifs with hc <;> simp [hc]

theorem mem_posRowIdx (m : RelMat) (i : ℕ) :
    i ∈ posRowIdx m ↔ i < m.n ∧ ∃ j, j < m.n ∧ 0 < m.entry i j := by
  simp only [posRowIdx, List.mem_flatMap, List.mem_map, List.mem_filter,
    List.mem_range, decide_eq_true_eq]
  constructor
  · rintro ⟨a, ha, j, ⟨hj, hpos⟩, rfl⟩
    exact ⟨ha, j, hj, hpos⟩
  · rintro ⟨hi, j, hj, hpos⟩
    exact ⟨i, hi, j, ⟨hj, hpos⟩, rfl⟩

theorem mem_mrtEdges (m : RelMat) (N a b : ℕ) :
    (a, b) ∈ mrtEdges m N ↔
      ∃ o1, o1 < N ∧ ∃ o2, o2 < o1 ∧
        ((m.entry o1 o2 = VMRN_FATHER ∧ a = o2 ∧ b = o1) ∨
         (m.entry o1 o2 = VMRN_CHILD ∧ a = o1 ∧ b = o2)) := by
  simp only [mrtEdges, List.mem_flatMap, List.mem_range, List.mem_append,
    mem_ite_pair, Prod.mk.injEq]

/-- Claim C8: when the relation matrix has a strictly positive entry,
`create_mrt` builds a graph whose edges, for every pair
`o2 < o1 < node count`, are `o2 → o1` exactly when the entry is
PARENT, `o1 → o2` exactly when it is CHILD, and absent in both
directions when it is NO_RELATION. -/
theorem create_mrt_edges (m : RelMat) (i0 j0 : ℕ)
    (hpos : i0 < m.n ∧ j0 < m.n ∧ 0 < m.entry i0 j0) :
    ∃ g, create_mrt m = some g ∧
      ∀ o1 o2, o2 < o1 → o1 < g.nodes.length →
        (((o2, o1) ∈ g.edges ↔ m.entry o1 o2 = VMRN_FATHER) ∧
         ((o1, o2) ∈ g.edges ↔ m.entry o1 o2 = VMRN_CHILD) ∧
         (m.entry o1 o2 = VMRN_NOREL →
           (o2, o1) ∉ g.edges ∧ (o1, o2) ∉ g.edges)) := by
  have hne : posRowIdx m ≠ [] := by
    intro hemp
    have hmem := (mem_posRowIdx m i0).mpr ⟨hpos.1, j0, hpos.2.1, hpos.2.2⟩
    rw [hemp] at hmem
    cases hmem
  obtain ⟨mx, hmx⟩ : ∃ mx, (posRowIdx m).max? = some mx := by
    cases hc : (posRowIdx m).max? with
    | none => exact absurd (List.max?_eq_none_iff.mp hc) hne
    | some v => exact ⟨v, rfl⟩
  refine ⟨⟨List.range (mx + 1), mrtEdges m (mx + 1)⟩, by rw [create_mrt, hmx], ?_⟩
  intro o1 o2 h21 h1N
  simp only [List.length_range] at h1N
  have hF : (o2, o1) ∈ mrtEdges m (mx + 1) ↔ m.entry o1 o2 = VMRN_FATHER := by
    rw [mem_mrtEdges]
    constructor
    · rintro ⟨p1, hp1, p2, hp2, ⟨hf, ha, hb⟩ | ⟨hc, ha, hb⟩⟩
      · subst ha; subst hb; exact hf
      · subst ha; subst hb; omega
    · intro hf
      exact ⟨o1, h1N, o2, h21, Or.inl ⟨hf, rfl, rfl⟩⟩
  have hC : (o1, o2) ∈ mrtEdges m (mx + 1) ↔ m.entry o1 o2 = VMRN_CHILD := by
    rw [mem_mrtEdges]
    constructor
    · rintro ⟨p1, hp1, p2, hp2, ⟨hf, ha, hb⟩ | ⟨hc, ha, hb⟩⟩
      · subst ha; subst hb; omega
      · subst ha; subst hb; exact hc
    · intro hc
      exact ⟨o1, h1N, o2, h21, Or.inr ⟨hc, rfl, rfl⟩⟩
  refine ⟨hF, hC, fun h3 => ⟨fun hm => ?_, fun hm => ?_⟩⟩
  · have := hF.mp hm
    rw [h3] at this
    exact absurd this (by decide)
  · have := hC.mp hm
    rw [h3] at this
    exact absurd this (by decide)

/-- Witness for C8 at a concrete 2-object matrix (object 1 is the
father of object 0). -/
theorem create_mrt_edges_witness :
    ∃ g, create_mrt relMatW8 = some g ∧
      ∀ o1 o2, o2 < o1 → o1 < g.nodes.length →
        (((o2, o1) ∈ g.edges ↔ relMatW8.entry o1 o2 = VMRN_FATHER) ∧
         ((o1, o2) ∈ g.edges ↔ relMatW8.entry o1 o2 = VMRN_CHILD) ∧
         (relMatW8.entry o1 o2 = VMRN_NOREL →
           (o2, o1) ∉ g.edges ∧ (o1, o2) ∉ g.edges)) :=
  create_mrt_edges relMatW8 1 0 (by decide)

/-- Claim C10: `create_mrt` produces no tree exactly when the matrix
has no strictly positive entry (the `np.max` of an empty index array
raises), and when it produces one, the node count is the maximal row
index of a strictly positive entry plus one. -/
theorem create_mrt_no_positive (m : RelMat) :
    (create_mrt m = none ↔ ∀ i j, i < m.n → j < m.n → ¬ 0 < m.entry i j) ∧
    (∀ g, create_mrt m = some g →
      ∃ mx, (posRowIdx m).max? = some mx ∧ g.nodes.length = mx + 1) := by
  constructor
  · have h1 : create_mrt m = none ↔ (posRowIdx m).max? = none := by
      unfold create_mrt
      cases hc : (posRowIdx m).max? <;> simp [hc]
    rw [h1, List.max?_eq_none_iff, List.eq_nil_iff_forall_not_mem]
    constructor
    · intro hno i j hi hj hpos
      exact hno i ((mem_posRowIdx m i).mpr ⟨hi, j, hj, hpos⟩)
    · intro hno a ha
      obtain ⟨hi, j, hj, hpos⟩ := (mem_posRowIdx m a).mp ha
      exact hno a j hi hj hpos
  · intro g hg
    unfold create_mrt at hg
    cases hc : (posRowIdx m).max? with
    | none => rw [hc] at hg; cases hg
    | some mx =>
      rw [hc] at hg
      refine ⟨mx, rfl, ?_⟩
      have := Option.some.inj hg
      rw [← this]
      simp [List.length_range]

/-- Witness for C10 at the 1×1 zero matrix (the single-object case). -/
theorem create_mrt_no_positive_witness :
    (create_mrt relMatW10 = none ↔
      ∀ i j, i < relMatW10.n → j < relMatW10.n → ¬ 0 < relMatW10.entry i j) ∧
    (∀ g, create_mrt relMatW10 = some g →
      ∃ mx, (posRowIdx relMatW10).max? = some mx ∧ g.nodes.length = mx + 1) :=
  create_mrt_no_positive relMatW10

theorem foldl_write_ne (L : List ((ℕ × ℕ) × ℤ)) (m : ℕ → ℕ → ℤ) (i j : ℕ)
    (h : ∀ pr ∈ L, pr.1 ≠ (i, j)) :
    (L.foldl (fun m pr => fun a b => if (a, b) = pr.1 then pr.2 else m a b) m) i j
      = m i j := by
  induction L generalizing m with
  | nil => rfl
  | cons pr L ih =>
    rw [List.foldl_cons, ih _ (fun q hq => h q (List.mem_cons_of_mem pr hq))]
    have hne : ¬ ((i, j) = pr.1) :=
      fun heq => h pr (List.mem_cons_self pr L) heq.symm
    show (if (i, j) = pr.1 then pr.2 else m i j) = m i j
    exact if_neg hne

theorem foldl_write_eq (L : List ((ℕ × ℕ) × ℤ)) (i j : ℕ) (v : ℤ)
    (hnd : (L.map Prod.fst).Nodup) (hmem : ((i, j), v) ∈ L) :
    ∀ m, (L.foldl (fun m pr => fun a b => if (a, b) = pr.1 then pr.2 else m a b) m) i j
      = v := by
  induction L with
  | nil => cases hmem
  | cons pr L ih =>
    intro m
    rw [List.map_cons, List.nodup_cons] at hnd
    rw [List.foldl_cons]
    rcases List.mem_cons.mp hmem with heq | hmem2
    · subst heq
      rw [foldl_write_ne L _ i j ?hni]
      case hni =>
        intro q hq hq1
        refine hnd.1 ?_
        have hqm := List.mem_map_of_mem Prod.fst hq
        rwa [hq1] at hqm
      show (if (i, j) = (i, j) then v else m i j) = v
      exact if_pos rfl
    · exact ih hnd.2 hmem2 _

theorem foldl_mirror_ne (L : List (ℕ × ℕ)) (m : ℕ → ℕ → ℤ) (i j : ℕ)
    (h : ∀ pr ∈ L, pr ≠ (i, j)) :
    (L.foldl (fun m pr => fun a b =>
      if (a, b) = pr then mirrorVal (m pr.2 pr.1) (m pr.1 pr.2) else m a b) m) i j
      = m i j := by
  induction L generalizing m with
  | nil => rfl
  | cons pr L ih =>
    rw [List.foldl_cons, ih _ (fun q hq => h q (List.mem_cons_of_mem pr hq))]
    have hne : ¬ ((i, j) = pr) :=
      fun heq => h pr (List.mem_cons_self pr L) heq.symm
    show (if (i, j) = pr then _ else m i j) = m i j
    exact if_neg hne

theorem foldl_mirror_lower (L : List (ℕ × ℕ)) (i j : ℕ) (hij : j < i)
    (hlow : ∀ pr ∈ L, pr.2 < pr.1) (hnd : L.Nodup) (hmem : (i, j) ∈ L) :
    ∀ m, (L.foldl (fun m pr => fun a b =>
      if (a, b) = pr then mirrorVal (m pr.2 pr.1) (m pr.1 pr.2) else m a b) m) i j
      = mirrorVal (m j i) (m i j) := by
  induction L with
  | nil => cases hmem
  | cons pr L ih =>
    intro m
    rw [List.nodup_cons] at hnd
    rw [List.foldl_cons]
    rcases List.mem_cons.mp hmem with heq | hmem2
    · subst heq
      rw [foldl_mirror_ne L _ i j (fun q hq hq1 => hnd.1 (hq1 ▸ hq))]
      show (if (i, j) = (i, j) then _ else m i j) = _
      rw [if_pos rfl]
    · have hne1 : pr ≠ (i, j) := fun he => hnd.1 (he ▸ hmem2)
      rw [ih (fun q hq => hlow q (List.mem_cons_of_mem pr hq)) hnd.2 hmem2]
      have e1 : (if ((j : ℕ), (i : ℕ)) = pr then
          mirrorVal (m pr.2 pr.1) (m pr.1 pr.2) else m j i) = m j i := by
        rw [if_neg]
        intro he
        have := hlow pr (List.mem_cons_self pr L)
        rw [← he] at this
        omega
      have e2 : (if ((i : ℕ), (j : ℕ)) = pr then
          mirrorVal (m pr.2 pr.1) (m pr.1 pr.2) else m i j) = m i j :=
        if_neg (fun he => hne1 he.symm)
      show mirrorVal
          (if ((j : ℕ), (i : ℕ)) = pr then _ else m j i)
          (if ((i : ℕ), (j : ℕ)) = pr then _ else m i j) = _
      rw [e1, e2]

theorem mem_upperPairs (n a b : ℕ) :
    (a, b) ∈ upperPairs n ↔ a < b ∧ b < n := by
  simp only [upperPairs, List.mem_flatMap, List.mem_map, List.mem_range,
    List.mem_range'_1, Prod.mk.injEq]
  constructor
  · rintro ⟨o1, h1, o2, ⟨hge, hlt⟩, rfl, rfl⟩
    omega
  · rintro ⟨hab, hbn⟩
    exact ⟨a, by omega, b, ⟨by omega, by omega⟩, rfl, rfl⟩

theorem mem_lowerPairs (n a b : ℕ) :
    (a, b) ∈ lowerPairs n ↔ b < a ∧ a < n := by
  simp only [lowerPairs, List.mem_flatMap, List.mem_map, List.mem_range,
    Prod.mk.injEq]
  constructor
  · rintro ⟨o1, h1, o2, h2, rfl, rfl⟩
    omega
  · rintro ⟨hba, han⟩
    exact ⟨a, han, b, hba, rfl, rfl⟩

theorem nodup_upperPairs (n : ℕ) : (upperPairs n).Nodup := by
  rw [upperPairs, List.nodup_flatMap]
  constructor
  · intro o1 _
    exact (List.nodup_range' _ _).map
      (fun x y h => ((Prod.mk.injEq _ _ _ _).mp h).2)
  · refine (List.nodup_range n).imp ?_
    intro a b hab x hxa hxb
    obtain ⟨o2, _, rfl⟩ := List.mem_map.mp hxa
    obtain ⟨o2', _, he⟩ := List.mem_map.mp hxb
    exact hab (((Prod.mk.injEq _ _ _ _).mp he).1.symm)

theorem nodup_lowerPairs (n : ℕ) : (lowerPairs n).Nodup := by
  rw [lowerPairs, List.nodup_flatMap]
  constructor
  · intro o1 _
    exact (List.nodup_range _).map
      (fun x y h => ((Prod.mk.injEq _ _ _ _).mp h).2)
  · refine (List.nodup_range n).imp ?_
    intro a b hab x hxa hxb
    obtain ⟨o2, _, rfl⟩ := List.mem_map.mp hxa
    obtain ⟨o2', _, he⟩ := List.mem_map.mp hxb
    exact hab (((Prod.mk.injEq _ _ _ _).mp he).1.symm)

theorem sum_map_add_one (l : List ℕ) (f : ℕ → ℕ) :
    (l.map (fun x => f x + 1)).sum = (l.map f).sum + l.length := by
  induction l with
  | nil => rfl
  | cons a l ih =>
    simp only [List.map_cons, List.sum_cons, List.length_cons, ih]
    omega

theorem two_mul_upper_len_sum (n : ℕ) :
    2 * ((List.range n).map (fun o1 => n - (o1 + 1))).sum = n * (n - 1) := by
  induction n with
  | zero => rfl
  | succ m ih =>
    rw [List.range_succ, List.map_append, List.sum_append]
    have e1 : (List.range m).map (fun o1 => m + 1 - (o1 + 1)) =
        (List.range m).map (fun o1 => (m - (o1 + 1)) + 1) := by
      apply List.map_congr_left
      intro x hx
      rw [List.mem_range] at hx
      omega
    rw [e1, sum_map_add_one, List.length_range]
    simp only [List.map_cons, List.map_nil, List.sum_cons, List.sum_nil]
    have e2 : m + 1 - (m + 1) = 0 := by omega
    rw [e2]
    have key : m * (m - 1) + 2 * m = (m + 1) * (m + 1 - 1) := by
      cases m with
      | zero => rfl
      | succ k =>
        simp only [Nat.add_sub_cancel]
        ring
    calc 2 * (((List.range m).map (fun o1 => m - (o1 + 1))).sum + m + (0 + 0))
        = 2 * ((List.range m).map (fun o1 => m - (o1 + 1))).sum + 2 * m := by
          ring
      _ = m * (m - 1) + 2 * m := by rw [ih]
      _ = (m + 1) * (m + 1 - 1) := key

theorem length_upperPairs (n : ℕ) :
    (upperPairs n).length = n * (n - 1) / 2 := by
  have hlen : (upperPairs n).length =
      ((List.range n).map (fun o1 => n - (o1 + 1))).sum := by
    rw [upperPairs, List.length_flatMap]
    congr 1
    apply List.map_congr_left
    intro x _
    simp [List.length_range']
  have h2 := two_mul_upper_len_sum n
  rw [hlen]
  generalize hM : n * (n - 1) = M at h2 ⊢
  omega

theorem exists_zip_pair {α β : Type} (l1 : List α) (l2 : List β) (a : α)
    (hlen : l1.length = l2.length) (ha : a ∈ l1) :
    ∃ b, b ∈ l2 ∧ (a, b) ∈ l1.zip l2 := by
  induction l1 generalizing l2 with
  | nil => cases ha
  | cons x l1 ih =>
    cases l2 with
    | nil => simp at hlen
    | cons y l2 =>
      rcases List.mem_cons.mp ha with rfl | ha2
      · exact ⟨y, List.mem_cons_self y l2,
          by rw [List.zip_cons_cons]; exact List.mem_cons_self _ _⟩
      · obtain ⟨b, hb, hz⟩ := ih l2 (by simpa using hlen) ha2
        exact ⟨b, List.mem_cons_of_mem y hb,
          by rw [List.zip_cons_cons]; exact List.mem_cons_of_mem (x, y) hz⟩

theorem torchArgmax3_le (r : ℚ × ℚ × ℚ) : torchArgmax3 r ≤ 2 := by
  unfold torchArgmax3
  split_ifs <;> omega

theorem relVec_mem_bounds (probs : List (ℚ × ℚ × ℚ)) (v : ℤ)
    (hv : v ∈ relVec probs) : 1 ≤ v ∧ v ≤ 3 := by
  obtain ⟨r, _, rfl⟩ := List.mem_map.mp hv
  have := torchArgmax3_le r
  omega

theorem fillUpper_upper (probs : List (ℚ × ℚ × ℚ)) (n i j : ℕ)
    (hij : i < j) (hj : j < n) (hlen : probs.length = n * (n - 1) / 2) :
    1 ≤ fillUpper probs n i j ∧ fillUpper probs n i j ≤ 3 := by
  have hmem : (i, j) ∈ upperPairs n := (mem_upperPairs n i j).mpr ⟨hij, hj⟩
  have hlen2 : (upperPairs n).length = (relVec probs).length := by
    rw [length_upperPairs, relVec, List.length_map, hlen]
  obtain ⟨v, hvrel, hz⟩ := exists_zip_pair _ _ _ hlen2 hmem
  have hnd : (((upperPairs n).zip (relVec probs)).map Prod.fst).Nodup := by
    rw [List.map_fst_zip _ _ (le_of_eq hlen2)]
    exact nodup_upperPairs n
  unfold fillUpper
  rw [foldl_write_eq _ i j v hnd hz _]
  exact relVec_mem_bounds probs v hvrel

theorem fillUpper_not_upper (probs : List (ℚ × ℚ × ℚ)) (n i j : ℕ)
    (h : ¬ (i < j ∧ j < n)) : fillUpper probs n i j = 0 := by
  unfold fillUpper
  apply foldl_write_ne
  rintro ⟨p, v⟩ hpr heq
  have h1 : p ∈ upperPairs n := (List.of_mem_zip hpr).1
  have heq2 : p = (i, j) := heq
  rw [heq2] at h1
  exact h ((mem_upperPairs n i j).mp h1)

theorem fillLowerPure_not_lower (m1 : ℕ → ℕ → ℤ) (n i j : ℕ) (h : ¬ j < i) :
    fillLowerPure m1 n i j = m1 i j := by
  unfold fillLowerPure
  apply foldl_mirror_ne
  rintro ⟨a, b⟩ hpr heq
  have h1 := (mem_lowerPairs n a b).mp hpr
  rw [Prod.mk.injEq] at heq
  omega

theorem fillLowerPure_lower (m1 : ℕ → ℕ → ℤ) (n i j : ℕ)
    (hij : j < i) (hi : i < n) :
    fillLowerPure m1 n i j = mirrorVal (m1 j i) (m1 i j) := by
  unfold fillLowerPure
  apply foldl_mirror_lower _ i j hij
  · rintro ⟨a, b⟩ hpr
    exact ((mem_lowerPairs n a b).mp hpr).1
  · exact nodup_lowerPairs n
  · exact (mem_lowerPairs n i j).mpr ⟨hij, hi⟩

theorem relMatFinal_pair (probs : List (ℚ × ℚ × ℚ)) (n i j : ℕ)
    (hij : i < j) (hj : j < n) (hlen : probs.length = n * (n - 1) / 2) :
    (1 ≤ relMatFinal probs n i j ∧ relMatFinal probs n i j ≤ 3) ∧
    relMatFinal probs n j i = mirrorVal (relMatFinal probs n i j) 0 := by
  have hup : relMatFinal probs n i j = fillUpper probs n i j :=
    fillLowerPure_not_lower _ n i j (by omega)
  have hlow : relMatFinal probs n j i =
      mirrorVal (fillUpper probs n i j) (fillUpper probs n j i) :=
    fillLowerPure_lower _ n j i hij hj
  have hz : fillUpper probs n j i = 0 :=
    fillUpper_not_upper probs n j i (by omega)
  refine ⟨by rw [hup]; exact fillUpper_upper probs n i j hij hj hlen, ?_⟩
  rw [hlow, hz, hup]

/-- Claim C4: for `num_obj ≥ 2` and a relation-probability matrix with
`num_obj * (num_obj - 1) / 2` rows (of 3 columns), `rel_prob_to_mat`
returns a matrix in which every off-diagonal entry is in {1, 2, 3},
entries mirror 3 exactly together, and non-3 mirrored entries sum
to 3. -/
theorem rel_prob_to_mat_symmetry (probs : List (ℚ × ℚ × ℚ)) (n : ℕ)
    (hn : 2 ≤ n) (hlen : probs.length = n * (n - 1) / 2) :
    rel_prob_to_mat probs n = Except.ok (relMatFinal probs n) ∧
    ∀ i j, i < n → j < n → i ≠ j →
      ((relMatFinal probs n i j = 1 ∨ relMatFinal probs n i j = 2 ∨
          relMatFinal probs n i j = 3) ∧
       (relMatFinal probs n i j = 3 ↔ relMatFinal probs n j i = 3) ∧
       (relMatFinal probs n i j ≠ 3 →
          relMatFinal probs n i j + relMatFinal probs n j i = 3)) := by
  constructor
  · have hne : ¬ probs.length = 0 := by
      rw [hlen]
      have h2 : 2 * 1 ≤ n * (n - 1) :=
        Nat.mul_le_mul hn (by omega)
      generalize hM : n * (n - 1) = M at h2
      omega
    rw [rel_prob_to_mat, if_neg hne]
    exact fillLower_eq_ok _ _
  · intro i j hi hj hne
    rcases Nat.lt_or_ge i j with hij | hge
    · obtain ⟨⟨h1, h3⟩, hmir⟩ := relMatFinal_pair probs n i j hij hj hlen
      have hv123 : relMatFinal probs n i j = 1 ∨ relMatFinal probs n i j = 2 ∨
          relMatFinal probs n i j = 3 := by omega
      have hw : (relMatFinal probs n i j = 1 ∧ relMatFinal probs n j i = 2) ∨
          (relMatFinal probs n i j = 2 ∧ relMatFinal probs n j i = 1) ∨
          (relMatFinal probs n i j = 3 ∧ relMatFinal probs n j i = 3) := by
        rcases hv123 with h | h | h
        · exact Or.inl ⟨h, by rw [hmir, h]; decide⟩
        · exact Or.inr (Or.inl ⟨h, by rw [hmir, h]; decide⟩)
        · exact Or.inr (Or.inr ⟨h, by rw [hmir, h]; decide⟩)
      refine ⟨hv123, ?_, ?_⟩ <;> omega
    · have hji : j < i := by omega
      obtain ⟨⟨h1, h3⟩, hmir⟩ := relMatFinal_pair probs n j i hji hi hlen
      have hv123 : relMatFinal probs n j i = 1 ∨ relMatFinal probs n j i = 2 ∨
          relMatFinal probs n j i = 3 := by omega
      have hw : (relMatFinal probs n j i = 1 ∧ relMatFinal probs n i j = 2) ∨
          (relMatFinal probs n j i = 2 ∧ relMatFinal probs n i j = 1) ∨
          (relMatFinal probs n j i = 3 ∧ relMatFinal probs n i j = 3) := by
        rcases hv123 with h | h | h
        · exact Or.inl ⟨h, by rw [hmir, h]; decide⟩
        · exact Or.inr (Or.inl ⟨h, by rw [hmir, h]; decide⟩)
        · exact Or.inr (Or.inr ⟨h, by rw [hmir, h]; decide⟩)
      refine ⟨?_, ?_, ?_⟩ <;> omega

/-- Witness for C4 at a concrete 2-object input: one pair row whose
arg-max class is 1, giving relation label 2. -/
theorem rel_prob_to_mat_symmetry_witness :
    rel_prob_to_mat [(0, 1, 0)] 2 = Except.ok (relMatFinal [(0, 1, 0)] 2) ∧
    ∀ i j, i < 2 → j < 2 → i ≠ j →
      ((relMatFinal [(0, 1, 0)] 2 i j = 1 ∨ relMatFinal [(0, 1, 0)] 2 i j = 2 ∨
          relMatFinal [(0, 1, 0)] 2 i j = 3) ∧
       (relMatFinal [(0, 1, 0)] 2 i j = 3 ↔ relMatFinal [(0, 1, 0)] 2 j i = 3) ∧
       (relMatFinal [(0, 1, 0)] 2 i j ≠ 3 →
          relMatFinal [(0, 1, 0)] 2 i j + relMatFinal [(0, 1, 0)] 2 j i = 3)) :=
  rel_prob_to_mat_symmetry [(0, 1, 0)] 2 (by decide) (by decide)

theorem argsortDesc_mem (s : List ℚ) (k : ℕ) :
    k ∈ argsortDesc s ↔ k < s.length := by
  rw [argsortDesc, (List.perm_insertionSort _ _).mem_iff, List.mem_range]

theorem argsortDesc_length (s : List ℚ) :
    (argsortDesc s).length = s.length := by
  rw [argsortDesc, (List.perm_insertionSort _ _).length_eq, List.length_range]

/-- Claim C6: a candidate whose score equals the threshold exactly is
never among the indices returned by `box_filter` (survival requires a
strictly greater score). -/
theorem box_filter_strict_threshold (box : Mat2) (scores : List ℚ)
    (thresh : ℚ) (use_nms : Bool)
    (nmsKeep : List (List ℚ) → List ℚ → List ℕ)
    (hnk : ∀ bs ss, ∀ k ∈ nmsKeep bs ss, k < bs.length)
    (i : ℕ) (hi : i < scores.length) (hsc : scores.getD i 0 = thresh) :
    i ∉ (box_filter box scores thresh use_nms nmsKeep).2.2 := by
  intro hmem
  have hno : i ∉ (List.range scores.length).filter
      (fun k => decide (thresh < scores.getD k 0)) := by
    intro hiin
    have h2 := (List.mem_filter.mp hiin).2
    simp only [decide_eq_true_eq] at h2
    rw [hsc] at h2
    exact lt_irrefl thresh h2
  simp only [box_filter] at hmem
  split at hmem
  · split at hmem
    · obtain ⟨k2, hk2, hieq⟩ := List.mem_map.mp hmem
      obtain ⟨kk, hkkmem, rfl⟩ := List.mem_map.mp hk2
      have hkkB := hnk _ _ _ hkkmem
      rw [List.length_map] at hkkB
      have hordmem := listGetD_mem _ _ 0 hkkB
      have hk2lt := (argsortDesc_mem _ _).mp hordmem
      rw [List.length_map] at hk2lt
      have hindmem := listGetD_mem _ _ 0 hk2lt
      rw [hieq] at hindmem
      exact hno hindmem
    · obtain ⟨k2, hk2, hieq⟩ := List.mem_map.mp hmem
      have hk2lt := (argsortDesc_mem _ _).mp hk2
      rw [List.length_map] at hk2lt
      have hindmem := listGetD_mem _ _ 0 hk2lt
      rw [hieq] at hindmem
      exact hno hindmem
  · exact absurd hmem (List.not_mem_nil i)

/-- Witness for C6 at a concrete input: the candidate with score 2,
equal to the threshold 2, is excluded. -/
theorem box_filter_strict_threshold_witness :
    0 ∉ (box_filter ⟨[[1, 2, 3, 4], [1, 1, 1, 1]], 4⟩ [2, 3] 2 false
      (fun _ _ => [])).2.2 :=
  box_filter_strict_threshold _ _ _ _ _
    (fun _ _ k hk => absurd hk (List.not_mem_nil k)) 0 (by decide) (by decide)

/-- Claim C5: whatever `box_filter` returns, each kept box and kept
score is the input row/score at the returned original index, and each
returned index is a position in the caller's original pre-filter,
pre-sort candidate ordering. -/
theorem box_filter_index_provenance (box : Mat2) (scores : List ℚ)
    (thresh : ℚ) (use_nms : Bool)
    (nmsKeep : List (List ℚ) → List ℚ → List ℕ)
    (hlen : box.rows.length = scores.length)
    (hnk : ∀ bs ss, ∀ k ∈ nmsKeep bs ss, k < bs.length)
    (dets : Mat2) (outScores : List ℚ) (outIdx : List ℕ)
    (hbf : box_filter box scores thresh use_nms nmsKeep =
      (dets, outScores, outIdx)) :
    dets.rows.length = outIdx.length ∧ outScores.length = outIdx.length ∧
    ∀ i, i < outIdx.length →
      outIdx.getD i 0 < box.rows.length ∧
      dets.rows.getD i [] = box.rows.getD (outIdx.getD i 0) [] ∧
      outScores.getD i 0 = scores.getD (outIdx.getD i 0) 0 := by
  simp only [box_filter] at hbf
  split at hbf
  · split at hbf
    · -- NMS branch
      injection hbf with h1 hrest
      injection hrest with h2 h3
      subst h1
      subst h2
      subst h3
      refine ⟨by simp only [List.length_map], by simp only [List.length_map], ?_⟩
      intro i hi
      simp only [List.length_map] at hi
      have hkkmem := listGetD_mem _ i 0 hi
      have hkkB := hnk _ _ _ hkkmem
      rw [List.length_map] at hkkB
      have hordmem := listGetD_mem _ _ 0 hkkB
      have hk2lt := (argsortDesc_mem _ _).mp hordmem
      rw [List.length_map] at hk2lt
      have hindmem := listGetD_mem _ _ 0 hk2lt
      have hindlt := List.mem_range.mp (List.mem_filter.mp hindmem).1
      refine ⟨?_, ?_, ?_⟩
      · rw [listGetD_map _ _ _ (by simp only [List.length_map]; exact hi) _ 0,
          listGetD_map _ _ _ hi _ 0, hlen]
        exact hindlt
      · rw [listGetD_map _ _ _ hi _ 0,
          listGetD_map _ _ _ hkkB _ 0,
          listGetD_map _ _ _ hk2lt _ 0,
          listGetD_map _ _ _ (by simp only [List.length_map]; exact hi) _ 0,
          listGetD_map _ _ _ hi _ 0]
      · rw [listGetD_map _ _ _ hi _ 0,
          listGetD_map _ _ _ hkkB _ 0,
          listGetD_map _ _ _ hk2lt _ 0,
          listGetD_map _ _ _ (by simp only [List.length_map]; exact hi) _ 0,
          listGetD_map _ _ _ hi _ 0]
    · -- no-NMS branch
      injection hbf with h1 hrest
      injection hrest with h2 h3
      subst h1
      subst h2
      subst h3
      refine ⟨by simp only [List.length_map], by simp only [List.length_map], ?_⟩
      intro i hi
      simp only [List.length_map] at hi
      have hordmem := listGetD_mem _ i 0 hi
      have hk2lt := (argsortDesc_mem _ _).mp hordmem
      rw [List.length_map] at hk2lt
      have hindmem := listGetD_mem _ _ 0 hk2lt
      have hindlt := List.mem_range.mp (List.mem_filter.mp hindmem).1
      refine ⟨?_, ?_, ?_⟩
      · rw [listGetD_map _ _ _ hi _ 0, hlen]
        exact hindlt
      · rw [listGetD_map _ _ _ hi _ 0,
          listGetD_map _ _ _ hk2lt _ 0,
          listGetD_map _ _ _ hi _ 0]
      · rw [listGetD_map _ _ _ hi _ 0,
          listGetD_map _ _ _ hk2lt _ 0,
          listGetD_map _ _ _ hi _ 0]
  · -- empty branch
    injection hbf with h1 hrest
    injection hrest with h2 h3
    subst h1
    subst h2
    subst h3
    exact ⟨rfl, rfl, fun i hi => absurd hi (by simp)⟩

/-- Witness for C5 at a concrete input: three candidates, two above
the threshold; the returned indices 1 and 2 point into the original
candidate list. -/
theorem box_filter_index_provenance_witness :
    (Mat2.mk [[3, 4], [5, 6]] 2).rows.length = ([1, 2] : List ℕ).length ∧
    ([3, 2] : List ℚ).length = ([1, 2] : List ℕ).length ∧
    ∀ i, i < ([1, 2] : List ℕ).length →
      ([1, 2] : List ℕ).getD i 0 < (Mat2.mk [[1, 2], [3, 4], [5, 6]] 2).rows.length ∧
      (Mat2.mk [[3, 4], [5, 6]] 2).rows.getD i [] =
        (Mat2.mk [[1, 2], [3, 4], [5, 6]] 2).rows.getD (([1, 2] : List ℕ).getD i 0) [] ∧
      ([3, 2] : List ℚ).getD i 0 =
        ([1, 3, 2] : List ℚ).getD (([1, 2] : List ℕ).getD i 0) 0 :=
  box_filter_index_provenance ⟨[[1, 2], [3, 4], [5, 6]], 2⟩ [1, 3, 2] 1 false
    (fun _ _ => []) (by decide)
    (fun _ _ k hk => absurd hk (List.not_mem_nil k))
    ⟨[[3, 4], [5, 6]], 2⟩ [3, 2] [1, 2] (by decide)
